import Mathlib

/-!
Verification of the two convolution routines in `src/main.rs`:
`polynomial_multiply` (linear convolution) and
`positive_wrapped_convolution` (circular convolution).

Modelling decisions, all read off the source:

* Sequences of `i64` become `List Int`.  The repository's own
  documentation declares accumulation overflow undefined and
  host-dependent, outside the functions' contract, so coefficients are
  modelled as unbounded integers.
* Length arithmetic is `usize` (`Nat`).  The expression
  `vec![0; n + m - 1]` panics (debug: subtraction underflow; release:
  capacity overflow of `usize::MAX`) exactly when `n + m = 0`, and
  `assert_eq!(n, b.len())` panics when the lengths differ, so both
  functions return `Option (List Int)`, with `none` for the panicking
  executions.
* The nested `for` loops with `result[k] += …` become `List.foldl` over
  `List.range` with `List.set`; all reads and writes are proved in
  bounds, where `List.getD _ 0` coincides with Rust indexing.
-/

/-- wrapped index `(x + n - i) % n` computed by line 60 of the source
(`let j = (x + n - i) % n;`), in `usize` arithmetic. -/
def wrappedIndex (x n i : Nat) : Nat := (x + n - i) % n

/-- loop part of `polynomial_multiply` (src/main.rs lines 25-36): the
buffer `vec![0; n + m - 1]` updated by
`result[i + j] += a[i] * b[j]` for each `i` in `0..n`, `j` in `0..m`. -/
def polynomial_multiply_core (a b : List Int) : List Int :=
  (List.range a.length).foldl
    (fun res i =>
      (List.range b.length).foldl
        (fun r j => r.set (i + j) (r.getD (i + j) 0 + a.getD i 0 * b.getD j 0)) res)
    (List.replicate (a.length + b.length - 1) 0)

/-- function `polynomial_multiply` (src/main.rs lines 25-36); `none`
models the `usize` underflow panic of `n + m - 1`, which occurs exactly
when `n + m = 0`. -/
def polynomial_multiply (a b : List Int) : Option (List Int) :=
  if a.length + b.length = 0 then none else some (polynomial_multiply_core a b)

/-- loop part of `positive_wrapped_convolution` (src/main.rs lines
54-65): the buffer `vec![0; n]` updated by
`result[x] += a[i] * b[j]` with `j = (x + n - i) % n`, for each `x` in
`0..n`, `i` in `0..n`. -/
def positive_wrapped_convolution_core (a b : List Int) : List Int :=
  (List.range a.length).foldl
    (fun res x =>
      (List.range a.length).foldl
        (fun r i =>
          r.set x (r.getD x 0 + a.getD i 0 * b.getD (wrappedIndex x a.length i) 0)) res)
    (List.replicate a.length 0)

/-- function `positive_wrapped_convolution` (src/main.rs lines 54-65);
`none` models the panic of
`assert_eq!(n, b.len(), "Input sequences must have the same length")`. -/
def positive_wrapped_convolution (a b : List Int) : Option (List Int) :=
  if a.length = b.length then some (positive_wrapped_convolution_core a b) else none

/-! Generic lemmas about accumulation loops: a `foldl` whose step writes
`r.set (idx x) (r.getD (idx x) 0 + v x)` preserves the length and adds,
at each position `p`, the sum of `v x` over the iterations with
`idx x = p`. -/

lemma getD_set_self (l : List Int) (q : Nat) (h : q < l.length) (v : Int) :
    (l.set q v).getD q 0 = v := by
  rw [List.getD_eq_getElem?_getD, List.getElem?_set_self]
  · simp
  · exact h

lemma getD_set_ne (l : List Int) (q p : Nat) (h : q ≠ p) (v : Int) :
    (l.set q v).getD p 0 = l.getD p 0 := by
  rw [List.getD_eq_getElem?_getD, List.getElem?_set_ne h, ← List.getD_eq_getElem?_getD]

lemma getD_replicate_zero (k p : Nat) : (List.replicate k (0:Int)).getD p 0 = 0 := by
  rcases lt_or_ge p k with h | h
  · rw [List.getD_eq_getElem?_getD, List.getElem?_replicate]
    simp [h]
  · rw [List.getD_eq_default]
    simp [h]

lemma getD_eq_zero_of_ge (l : List Int) (p : Nat) (h : l.length ≤ p) :
    l.getD p 0 = 0 := by
  rw [List.getD_eq_default]
  exact h

lemma sum_map_range (f : Nat → Int) (n : Nat) :
    ((List.range n).map f).sum = ∑ j in Finset.range n, f j := by
  induction n with
  | zero => simp
  | succ k ih =>
      rw [List.range_succ, List.map_append, List.sum_append, Finset.sum_range_succ, ih]
      simp

lemma length_foldl_set (idx : Nat → Nat) (v : Nat → Int) (l : List Nat) :
    ∀ init : List Int,
      (l.foldl (fun r x => r.set (idx x) (r.getD (idx x) 0 + v x)) init).length
        = init.length := by
  induction l with
  | nil => intro init; rfl
  | cons hd tl ih =>
      intro init
      rw [List.foldl_cons, ih, List.length_set]

lemma foldl_set_getD (idx : Nat → Nat) (v : Nat → Int) (l : List Nat) :
    ∀ (init : List Int) (p : Nat),
      (∀ x ∈ l, idx x < init.length) →
      (l.foldl (fun r x => r.set (idx x) (r.getD (idx x) 0 + v x)) init).getD p 0
        = init.getD p 0 + (l.map (fun x => if idx x = p then v x else 0)).sum := by
  induction l with
  | nil => intro init p _; simp
  | cons hd tl ih =>
      intro init p h
      rw [List.foldl_cons, List.map_cons, List.sum_cons,
        ih (init.set (idx hd) (init.getD (idx hd) 0 + v hd)) p
          (by intro x hx; rw [List.length_set]; exact h x (List.mem_cons_of_mem hd hx))]
      by_cases hq : idx hd = p
      · rw [if_pos hq]
        have hlt : idx hd < init.length := h hd (List.mem_cons_self hd tl)
        rw [hq] at hlt
        rw [hq, getD_set_self init p hlt _]
        ring
      · rw [if_neg hq, getD_set_ne init (idx hd) p hq _]
        ring

/-! Coefficient characterization of `polynomial_multiply_core`. -/

lemma pm_outer_length (a b : List Int) (l : List Nat) :
    ∀ init : List Int,
      (l.foldl
        (fun res i =>
          (List.range b.length).foldl
            (fun r j => r.set (i + j) (r.getD (i + j) 0 + a.getD i 0 * b.getD j 0)) res)
        init).length = init.length := by
  induction l with
  | nil => intro init; rfl
  | cons hd tl ih =>
      intro init
      rw [List.foldl_cons, ih,
        length_foldl_set (fun j => hd + j) (fun j => a.getD hd 0 * b.getD j 0)
          (List.range b.length) init]

lemma polynomial_multiply_core_length (a b : List Int) :
    (polynomial_multiply_core a b).length = a.length + b.length - 1 := by
  unfold polynomial_multiply_core
  rw [pm_outer_length a b (List.range a.length), List.length_replicate]

lemma pm_outer_getD (a b : List Int) :
    ∀ t, t ≤ a.length → ∀ p,
      ((List.range t).foldl
        (fun res i =>
          (List.range b.length).foldl
            (fun r j => r.set (i + j) (r.getD (i + j) 0 + a.getD i 0 * b.getD j 0)) res)
        (List.replicate (a.length + b.length - 1) 0)).getD p 0
      = ∑ i in Finset.range t, ∑ j in Finset.range b.length,
          if i + j = p then a.getD i 0 * b.getD j 0 else 0 := by
  intro t
  induction t with
  | zero =>
      intro _ p
      rw [List.range_zero, List.foldl_nil, getD_replicate_zero, Finset.range_zero,
        Finset.sum_empty]
  | succ t ih =>
      intro ht p
      rw [List.range_succ, List.foldl_append, List.foldl_cons, List.foldl_nil,
        foldl_set_getD (fun j => t + j) (fun j => a.getD t 0 * b.getD j 0)
          (List.range b.length) _ p ?_,
        ih (Nat.le_of_succ_le ht) p, sum_map_range, Finset.sum_range_succ]
      intro x hx
      rw [pm_outer_length a b (List.range t), List.length_replicate]
      rw [List.mem_range] at hx
      show t + x < a.length + b.length - 1
      omega

lemma polynomial_multiply_core_getD (a b : List Int) (p : Nat) :
    (polynomial_multiply_core a b).getD p 0
      = ∑ i in Finset.range a.length, ∑ j in Finset.range b.length,
          if i + j = p then a.getD i 0 * b.getD j 0 else 0 := by
  unfold polynomial_multiply_core
  exact pm_outer_getD a b a.length le_rfl p

/-! Coefficient characterization of `positive_wrapped_convolution_core`. -/

lemma pwc_outer_length (a b : List Int) (l : List Nat) :
    ∀ init : List Int,
      (l.foldl
        (fun res x =>
          (List.range a.length).foldl
            (fun r i =>
              r.set x (r.getD x 0 + a.getD i 0 * b.getD (wrappedIndex x a.length i) 0)) res)
        init).length = init.length := by
  induction l with
  | nil => intro init; rfl
  | cons hd tl ih =>
      intro init
      rw [List.foldl_cons, ih,
        length_foldl_set (fun _ => hd)
          (fun i => a.getD i 0 * b.getD (wrappedIndex hd a.length i) 0)
          (List.range a.length) init]

lemma pwc_outer_getD (a b : List Int) :
    ∀ t, t ≤ a.length → ∀ p,
      ((List.range t).foldl
        (fun res x =>
          (List.range a.length).foldl
            (fun r i =>
              r.set x (r.getD x 0 + a.getD i 0 * b.getD (wrappedIndex x a.length i) 0)) res)
        (List.replicate a.length 0)).getD p 0
      = if p < t then
          ∑ i in Finset.range a.length,
            a.getD i 0 * b.getD (wrappedIndex p a.length i) 0
        else 0 := by
  intro t
  induction t with
  | zero =>
      intro _ p
      rw [List.range_zero, List.foldl_nil, getD_replicate_zero, if_neg (Nat.not_lt_zero p)]
  | succ t ih =>
      intro ht p
      rw [List.range_succ, List.foldl_append, List.foldl_cons, List.foldl_nil,
        foldl_set_getD (fun _ => t)
          (fun i => a.getD i 0 * b.getD (wrappedIndex t a.length i) 0)
          (List.range a.length) _ p ?_,
        ih (Nat.le_of_succ_le ht) p, sum_map_range]
      · by_cases hp : t = p
        · subst hp
          rw [if_neg (lt_irrefl t), if_pos (Nat.lt_succ_self t), zero_add]
          exact Finset.sum_congr rfl (fun i _ => if_pos rfl)
        · have : (∑ i in Finset.range a.length,
              if t = p then a.getD i 0 * b.getD (wrappedIndex t a.length i) 0 else 0) = 0 := by
            exact Finset.sum_eq_zero (fun i _ => if_neg hp)
          rw [this, add_zero]
          by_cases hpt : p < t
          · rw [if_pos hpt, if_pos (Nat.lt_succ_of_lt hpt)]
          · rw [if_neg hpt, if_neg (by omega)]
      · intro x _
        rw [pwc_outer_length a b (List.range t), List.length_replicate]
        show t < a.length
        omega

lemma positive_wrapped_convolution_core_length (a b : List Int) :
    (positive_wrapped_convolution_core a b).length = a.length := by
  unfold positive_wrapped_convolution_core
  rw [pwc_outer_length a b (List.range a.length), List.length_replicate]

lemma positive_wrapped_convolution_core_getD (a b : List Int) (p : Nat) :
    (positive_wrapped_convolution_core a b).getD p 0
      = if p < a.length then
          ∑ i in Finset.range a.length,
            a.getD i 0 * b.getD (wrappedIndex p a.length i) 0
        else 0 := by
  unfold positive_wrapped_convolution_core
  exact pwc_outer_getD a b a.length le_rfl p

/-! Arithmetic of the wrapped index. -/

lemma wrappedIndex_lt (x n i : Nat) (hn : 0 < n) : wrappedIndex x n i < n :=
  Nat.mod_lt _ hn

lemma wrappedIndex_key (n x i : Nat) (hx : x < n) (hi : i < n) :
    (i + wrappedIndex x n i) % n = x := by
  unfold wrappedIndex
  have h2 : (i + (x + n - i) % n) % n = (i + (x + n - i)) % n :=
    (Nat.mod_modEq (x + n - i) n).add_left i
  rw [h2, (by omega : i + (x + n - i) = x + n), Nat.add_mod_right, Nat.mod_eq_of_lt hx]

lemma index_iff (n x i : Nat) (hn : 0 < n) (hx : x < n) (hi : i < n)
    (j : Nat) (hj : j < n) :
    (i + j) % n = x ↔ j = wrappedIndex x n i := by
  constructor
  · intro h
    have hmod : (i + j) % n = (i + wrappedIndex x n i) % n := by
      rw [h, wrappedIndex_key n x i hx hi]
    have hje : j % n = wrappedIndex x n i % n :=
      Nat.ModEq.add_left_cancel' i hmod
    rw [Nat.mod_eq_of_lt hj, Nat.mod_eq_of_lt (wrappedIndex_lt x n i hn)] at hje
    exact hje
  · intro h
    rw [h]
    exact wrappedIndex_key n x i hx hi

lemma wrappedIndex_involutive (n x i : Nat) (hn : 0 < n) (hx : x < n) (hi : i < n) :
    wrappedIndex x n (wrappedIndex x n i) = i := by
  have h1 : wrappedIndex x n i < n := wrappedIndex_lt x n i hn
  have h2 : (wrappedIndex x n i + i) % n = x := by
    rw [Nat.add_comm]
    exact wrappedIndex_key n x i hx hi
  exact ((index_iff n x (wrappedIndex x n i) hn hx h1 i hi).mp h2).symm

lemma wrappedIndex_emod (n x i : Nat) (hn : 0 < n) (hx : x < n) (hi : i < n) :
    wrappedIndex x n i = (((x : Int) - (i : Int)) % (n : Int)).toNat := by
  have hle : i ≤ x + n := by omega
  have hcast : ((x + n - i : Nat) : Int) = (x : Int) - (i : Int) + (n : Int) := by
    rw [Nat.cast_sub hle]
    push_cast
    ring
  have h1 : ((x : Int) - (i : Int)) % (n : Int) = (((x + n - i) % n : Nat) : Int) := by
    rw [Int.natCast_mod, hcast, ← Int.add_mul_emod_self_left ((x : Int) - i) (n : Int) 1,
      mul_one]
  unfold wrappedIndex
  rw [h1, Int.toNat_natCast]

lemma wrappedIndex_eq_zero_iff (n x i : Nat) (hn : 0 < n) (hx : x < n) (hi : i < n) :
    wrappedIndex x n i = 0 ↔ i = x := by
  have h := index_iff n x i hn hx hi 0 hn
  rw [Nat.add_zero, Nat.mod_eq_of_lt hi] at h
  constructor
  · intro h0
    exact h.mpr h0.symm
  · intro h0
    exact (h.mp h0).symm

/-! Equality of lists from pointwise `getD` agreement. -/

lemma list_eq_of_getD (l1 l2 : List Int) (h : l1.length = l2.length)
    (hg : ∀ p, p < l1.length → l1.getD p 0 = l2.getD p 0) : l1 = l2 := by
  apply List.ext_getElem h
  intro i h1 h2
  rw [← List.getD_eq_getElem l1 0 h1, ← List.getD_eq_getElem l2 0 h2]
  exact hg i h1

lemma foldl_keep (l : List Nat) (init : List Int) :
    l.foldl (fun r (_ : Nat) => r) init = init := by
  induction l with
  | nil => rfl
  | cons hd tl ih => rw [List.foldl_cons]; exact ih

/-! Claims. -/

/-- C1: for inputs `a` of length `n ≥ 1` and `b` of length `m ≥ 1`,
`polynomial_multiply` returns a sequence of length `n + m - 1` whose
`k`-th entry is the sum of `a[i] * b[j]` over all pairs with
`i + j = k`, `0 ≤ i < n`, `0 ≤ j < m`. -/
theorem linear_convolution_coefficients (a b : List Int)
    (ha : 1 ≤ a.length) (hb : 1 ≤ b.length) :
    ∃ c, polynomial_multiply a b = some c ∧
      c.length = a.length + b.length - 1 ∧
      ∀ k < a.length + b.length - 1,
        c.getD k 0 = ∑ i in Finset.range a.length, ∑ j in Finset.range b.length,
          if i + j = k then a.getD i 0 * b.getD j 0 else 0 := by
  refine ⟨polynomial_multiply_core a b, ?_, polynomial_multiply_core_length a b, ?_⟩
  · unfold polynomial_multiply
    rw [if_neg (by omega)]
  · intro k _
    exact polynomial_multiply_core_getD a b k

/-- witness for C1 at `a = [1]`, `b = [2]`. -/
theorem linear_convolution_coefficients_witness :
    ∃ c, polynomial_multiply [1] [2] = some c ∧
      c.length = [(1 : Int)].length + [(2 : Int)].length - 1 ∧
      ∀ k < [(1 : Int)].length + [(2 : Int)].length - 1,
        c.getD k 0 = ∑ i in Finset.range [(1 : Int)].length,
          ∑ j in Finset.range [(2 : Int)].length,
            if i + j = k then [(1 : Int)].getD i 0 * [(2 : Int)].getD j 0 else 0 :=
  linear_convolution_coefficients [1] [2] (by decide) (by decide)

/-- C2: for equal-length inputs of length `n ≥ 1`,
`positive_wrapped_convolution` returns a sequence of length `n` whose
`x`-th entry is the sum over `i` of `a[i] * b[(x - i) mod n]`, with the
mathematical always-nonnegative modulo on integers. -/
theorem circular_convolution_coefficients (a b : List Int)
    (hab : a.length = b.length) (hn : 1 ≤ a.length) :
    ∃ r, positive_wrapped_convolution a b = some r ∧
      r.length = a.length ∧
      ∀ x < a.length,
        r.getD x 0 = ∑ i in Finset.range a.length,
          a.getD i 0 * b.getD ((((x : Int) - (i : Int)) % (a.length : Int)).toNat) 0 := by
  refine ⟨positive_wrapped_convolution_core a b, ?_,
    positive_wrapped_convolution_core_length a b, ?_⟩
  · unfold positive_wrapped_convolution
    rw [if_pos hab]
  · intro x hx
    rw [positive_wrapped_convolution_core_getD, if_pos hx]
    refine Finset.sum_congr rfl (fun i hi => ?_)
    rw [Finset.mem_range] at hi
    rw [wrappedIndex_emod a.length x i (by omega) hx hi]

/-- witness for C2 at `a = [1, 2]`, `b = [3, 4]`. -/
theorem circular_convolution_coefficients_witness :
    ∃ r, positive_wrapped_convolution [1, 2] [3, 4] = some r ∧
      r.length = [(1 : Int), 2].length ∧
      ∀ x < [(1 : Int), 2].length,
        r.getD x 0 = ∑ i in Finset.range [(1 : Int), 2].length,
          [(1 : Int), 2].getD i 0 *
            [(3 : Int), 4].getD
              ((((x : Int) - (i : Int)) % (([(1 : Int), 2].length : Nat) : Int)).toNat) 0 :=
  circular_convolution_coefficients [1, 2] [3, 4] (by decide) (by decide)

/-- C3: on inputs of unequal length, `positive_wrapped_convolution`
fails with the precondition-violation panic of `assert_eq!` and never
returns a numeric result. -/
theorem circular_convolution_length_mismatch (a b : List Int)
    (h : a.length ≠ b.length) :
    positive_wrapped_convolution a b = none := by
  unfold positive_wrapped_convolution
  rw [if_neg h]

/-- witness for C3 at `a = [1]`, `b = []`. -/
theorem circular_convolution_length_mismatch_witness :
    positive_wrapped_convolution [1] [] = none :=
  circular_convolution_length_mismatch [1] [] (by decide)

/-- C9: on the fixed sample inputs `a = [1,2,3,4]`, `b = [5,6,7,8]`, the
linear convolution is `[5,16,34,60,61,52,32]` and the circular
convolution is `[66,68,66,60]`. -/
theorem sample_outputs :
    polynomial_multiply [1, 2, 3, 4] [5, 6, 7, 8] = some [5, 16, 34, 60, 61, 52, 32] ∧
      positive_wrapped_convolution [1, 2, 3, 4] [5, 6, 7, 8] = some [66, 68, 66, 60] := by
  constructor
  · decide
  · decide

/-- counterexample to C8: with an empty first input and a nonempty
second input of length `m = 1`, `n + m - 1 = 0` does not underflow and
`polynomial_multiply` returns the sequence of `m - 1 = 0` zeros instead
of failing. -/
theorem pm_single_empty_succeeds :
    polynomial_multiply [] [1] = some [] ∧ polynomial_multiply [1] [] = some [] := by
  constructor
  · decide
  · decide

/-- C8 (amended): the unguarded `n + m - 1` underflows, and the call to
`polynomial_multiply` fails rather than returning a sequence, exactly
when both inputs have length `0`; with only one empty input the
arithmetic does not underflow. -/
theorem pm_underflow_iff_both_empty (a b : List Int) :
    polynomial_multiply a b = none ↔ a = [] ∧ b = [] := by
  unfold polynomial_multiply
  by_cases h : a.length + b.length = 0
  · rw [if_pos h]
    simp only [true_iff]
    constructor
    · exact List.length_eq_zero.mp (by omega)
    · exact List.length_eq_zero.mp (by omega)
  · rw [if_neg h]
    simp only [reduceCtorEq, false_iff, not_and]
    intro ha hb
    subst ha
    subst hb
    exact absurd rfl h

/-- witness for the amended C8 at `a = [] = b`. -/
theorem pm_underflow_iff_both_empty_witness :
    polynomial_multiply [] [] = none :=
  (pm_underflow_iff_both_empty [] []).mpr ⟨rfl, rfl⟩

/-- C10: when exactly one input of `polynomial_multiply` is empty and
the other has length `m ≥ 1`, the call does not fail and returns the
sequence of `m - 1` zeros (the accumulation loop never runs); the
`n + m - 1` underflow failure occurs only when both inputs are empty. -/
theorem pm_one_empty_returns_zeros (a b : List Int) :
    (a = [] → b ≠ [] → polynomial_multiply a b = some (List.replicate (b.length - 1) 0)) ∧
      (b = [] → a ≠ [] → polynomial_multiply a b = some (List.replicate (a.length - 1) 0)) ∧
      (polynomial_multiply a b = none → a = [] ∧ b = []) := by
  refine ⟨?_, ?_, ?_⟩
  · intro ha hb
    subst ha
    have hb1 : b.length ≠ 0 := fun h => hb (List.length_eq_zero.mp h)
    unfold polynomial_multiply
    rw [if_neg (by simp only [List.length_nil, Nat.zero_add]; exact hb1)]
    congr 1
    unfold polynomial_multiply_core
    simp only [List.length_nil, List.range_zero, List.foldl_nil, Nat.zero_add]
  · intro hb ha
    subst hb
    have ha1 : a.length ≠ 0 := fun h => ha (List.length_eq_zero.mp h)
    unfold polynomial_multiply
    rw [if_neg (by simp only [List.length_nil, Nat.add_zero]; exact ha1)]
    congr 1
    unfold polynomial_multiply_core
    simp only [List.length_nil, List.range_zero, List.foldl_nil]
    rw [foldl_keep, Nat.add_zero]
  · intro hnone
    unfold polynomial_multiply at hnone
    by_cases h : a.length + b.length = 0
    · exact ⟨List.length_eq_zero.mp (by omega), List.length_eq_zero.mp (by omega)⟩
    · rw [if_neg h] at hnone
      exact absurd hnone (by simp)

/-- witness for C10 at `a = []` with `b = [1, 2]`, at `a = [3]` with
`b = []`, and at `a = [] = b`. -/
theorem pm_one_empty_returns_zeros_witness :
    polynomial_multiply [] [1, 2] = some (List.replicate ([(1 : Int), 2].length - 1) 0) ∧
      polynomial_multiply [3] [] = some (List.replicate ([(3 : Int)].length - 1) 0) ∧
      (([] : List Int) = [] ∧ ([] : List Int) = []) :=
  ⟨(pm_one_empty_returns_zeros [] [1, 2]).1 rfl (by decide),
    (pm_one_empty_returns_zeros [3] []).2.1 rfl (by decide),
    (pm_one_empty_returns_zeros [] []).2.2 (by decide)⟩

/-- C7: for `n ≥ 1` and `x, i` in `[0, n)`, the wrapped-index
computation `j = (x + n - i) % n` never underflows before the modulo
(the `usize` subtraction agrees with the integer value), the resulting
index lies in `[0, n - 1]`, and the access `b[j]` is in bounds for any
`b` of length `n`. -/
theorem wrapped_index_in_bounds (n x i : Nat) (hn : 1 ≤ n) (hx : x < n) (hi : i < n) :
    i ≤ x + n ∧ ((x + n - i : Nat) : Int) = (x : Int) + (n : Int) - (i : Int) ∧
      wrappedIndex x n i ≤ n - 1 ∧
      ∀ b : List Int, b.length = n → wrappedIndex x n i < b.length := by
  refine ⟨by omega, ?_, ?_, ?_⟩
  · rw [Nat.cast_sub (by omega)]
    push_cast
    ring
  · have := wrappedIndex_lt x n i (by omega)
    omega
  · intro b hb
    rw [hb]
    exact wrappedIndex_lt x n i (by omega)

/-- witness for C7 at `n = 2`, `x = 1`, `i = 1`. -/
theorem wrapped_index_in_bounds_witness :
    1 ≤ 1 + 2 ∧ ((1 + 2 - 1 : Nat) : Int) = (1 : Int) + (2 : Int) - (1 : Int) ∧
      wrappedIndex 1 2 1 ≤ 2 - 1 ∧
      ∀ b : List Int, b.length = 2 → wrappedIndex 1 2 1 < b.length :=
  wrapped_index_in_bounds 2 1 1 (by decide) (by decide) (by decide)

/-! Helper lemmas for commutativity, identities and the linear-circular
relation. -/

lemma sum_wrapped_eq_double (f g : Nat → Int) (n p : Nat) (hn : 0 < n) (hp : p < n) :
    ∑ i in Finset.range n, f i * g (wrappedIndex p n i)
      = ∑ i in Finset.range n, ∑ j in Finset.range n,
          if (i + j) % n = p then f i * g j else 0 := by
  refine Finset.sum_congr rfl (fun i hi => ?_)
  rw [Finset.mem_range] at hi
  have h1 : ∀ j ∈ Finset.range n,
      (if (i + j) % n = p then f i * g j else 0)
        = (if j = wrappedIndex p n i then f i * g j else 0) := by
    intro j hj
    rw [Finset.mem_range] at hj
    exact if_congr (index_iff n p i hn hp hi j hj) rfl rfl
  rw [Finset.sum_congr rfl h1,
    Finset.sum_ite_eq' (Finset.range n) (wrappedIndex p n i) (fun j => f i * g j),
    if_pos (Finset.mem_range.mpr (wrappedIndex_lt p n i hn))]

lemma double_wrapped_comm (f g : Nat → Int) (n p : Nat) :
    (∑ i in Finset.range n, ∑ j in Finset.range n,
        if (i + j) % n = p then f i * g j else 0)
      = ∑ i in Finset.range n, ∑ j in Finset.range n,
          if (i + j) % n = p then g i * f j else 0 := by
  rw [Finset.sum_comm]
  refine Finset.sum_congr rfl (fun u _ => Finset.sum_congr rfl (fun v _ => ?_))
  rw [Nat.add_comm v u, mul_comm (f v) (g u)]

lemma pm_core_comm (a b : List Int) :
    polynomial_multiply_core a b = polynomial_multiply_core b a := by
  apply list_eq_of_getD
  · rw [polynomial_multiply_core_length, polynomial_multiply_core_length, Nat.add_comm]
  · intro p _
    rw [polynomial_multiply_core_getD, polynomial_multiply_core_getD, Finset.sum_comm]
    refine Finset.sum_congr rfl (fun u _ => Finset.sum_congr rfl (fun v _ => ?_))
    rw [Nat.add_comm v u, mul_comm (a.getD v 0) (b.getD u 0)]

lemma pwc_core_comm (a b : List Int) (hab : a.length = b.length) :
    positive_wrapped_convolution_core a b = positive_wrapped_convolution_core b a := by
  apply list_eq_of_getD
  · rw [positive_wrapped_convolution_core_length,
      positive_wrapped_convolution_core_length, hab]
  · intro p hp
    rw [positive_wrapped_convolution_core_length] at hp
    rw [positive_wrapped_convolution_core_getD, positive_wrapped_convolution_core_getD,
      ← hab, if_pos hp, if_pos hp]
    have hn : 0 < a.length := by omega
    rw [sum_wrapped_eq_double (fun i => a.getD i 0) (fun j => b.getD j 0) a.length p hn hp,
      sum_wrapped_eq_double (fun i => b.getD i 0) (fun j => a.getD j 0) a.length p hn hp,
      double_wrapped_comm (fun i => a.getD i 0) (fun j => b.getD j 0) a.length p]

/-- C5: both convolutions are commutative; the linear one for all
nonempty inputs (of equal or unequal lengths), the circular one for all
equal-length inputs. -/
theorem convolution_commutative (a b : List Int) :
    (a.length ≠ 0 → b.length ≠ 0 → polynomial_multiply a b = polynomial_multiply b a) ∧
      (a.length = b.length →
        positive_wrapped_convolution a b = positive_wrapped_convolution b a) := by
  constructor
  · intro _ _
    unfold polynomial_multiply
    rw [pm_core_comm a b, Nat.add_comm a.length b.length]
  · intro hab
    unfold positive_wrapped_convolution
    rw [if_pos hab, if_pos hab.symm, pwc_core_comm a b hab]

/-- witness for C5 at `a = [1, 2]`, `b = [3, 4]`. -/
theorem convolution_commutative_witness :
    (polynomial_multiply [1, 2] [3, 4] = polynomial_multiply [3, 4] [1, 2]) ∧
      (positive_wrapped_convolution [1, 2] [3, 4]
        = positive_wrapped_convolution [3, 4] [1, 2]) :=
  ⟨(convolution_commutative [1, 2] [3, 4]).1 (by decide) (by decide),
    (convolution_commutative [1, 2] [3, 4]).2 (by decide)⟩

lemma pm_core_one (a : List Int) : polynomial_multiply_core a [1] = a := by
  apply list_eq_of_getD
  · rw [polynomial_multiply_core_length]
    simp
  · intro p hp
    rw [polynomial_multiply_core_length] at hp
    simp only [List.length_singleton] at hp
    rw [polynomial_multiply_core_getD]
    simp only [List.length_singleton, Finset.sum_range_one, Nat.add_zero,
      List.getD_cons_zero, mul_one]
    rw [Finset.sum_ite_eq' (Finset.range a.length) p (fun i => a.getD i 0),
      if_pos (Finset.mem_range.mpr (by omega))]

lemma pwc_core_unit (a : List Int) (hn : 1 ≤ a.length) :
    positive_wrapped_convolution_core a (1 :: List.replicate (a.length - 1) 0) = a := by
  apply list_eq_of_getD
  · rw [positive_wrapped_convolution_core_length]
  · intro p hp
    rw [positive_wrapped_convolution_core_length] at hp
    rw [positive_wrapped_convolution_core_getD, if_pos hp]
    have he : ∀ q : Nat,
        (1 :: List.replicate (a.length - 1) (0:Int)).getD q 0 = if q = 0 then 1 else 0 := by
      intro q
      cases q with
      | zero => rfl
      | succ k =>
          rw [if_neg (Nat.succ_ne_zero k), List.getD_cons_succ]
          exact getD_replicate_zero _ _
    have h1 : ∀ i ∈ Finset.range a.length,
        a.getD i 0 *
            (1 :: List.replicate (a.length - 1) (0:Int)).getD (wrappedIndex p a.length i) 0
          = if i = p then a.getD i 0 else 0 := by
      intro i hi
      rw [Finset.mem_range] at hi
      rw [he]
      by_cases h : wrappedIndex p a.length i = 0
      · rw [if_pos h, mul_one,
          if_pos ((wrappedIndex_eq_zero_iff a.length p i (by omega) hp hi).mp h)]
      · rw [if_neg h, mul_zero,
          if_neg (fun hip => h ((wrappedIndex_eq_zero_iff a.length p i (by omega) hp hi).mpr hip))]
    rw [Finset.sum_congr rfl h1,
      Finset.sum_ite_eq' (Finset.range a.length) p (fun i => a.getD i 0),
      if_pos (Finset.mem_range.mpr hp)]

/-- C6: the singleton `[1]` is a linear-convolution identity, and for
nonempty `a` of length `n` the length-matched `[1, 0, …, 0]` is a
circular-convolution identity. -/
theorem convolution_identity_elements (a : List Int) :
    polynomial_multiply a [1] = some a ∧
      (1 ≤ a.length →
        positive_wrapped_convolution a (1 :: List.replicate (a.length - 1) 0) = some a) := by
  constructor
  · unfold polynomial_multiply
    rw [if_neg (by simp), pm_core_one]
  · intro hn
    unfold positive_wrapped_convolution
    have hlen : a.length = (1 :: List.replicate (a.length - 1) (0:Int)).length := by
      simp
      omega
    rw [if_pos hlen, pwc_core_unit a hn]

/-- witness for C6 at `a = [5, 7]`. -/
theorem convolution_identity_elements_witness :
    polynomial_multiply [5, 7] [1] = some [5, 7] ∧
      positive_wrapped_convolution [5, 7]
        (1 :: List.replicate ([(5 : Int), 7].length - 1) 0) = some [5, 7] :=
  ⟨(convolution_identity_elements [5, 7]).1,
    (convolution_identity_elements [5, 7]).2 (by decide)⟩

lemma wrapped_linear_sum (a b : List Int) (n : Nat) (hn : 0 < n)
    (ha : a.length = n) (hb : b.length = n) (x : Nat) (hx : x < n) :
    (∑ k in Finset.range (2 * n - 1),
        if k % n = x then (polynomial_multiply_core a b).getD k 0 else 0)
      = ∑ i in Finset.range n, ∑ j in Finset.range n,
          if (i + j) % n = x then a.getD i 0 * b.getD j 0 else 0 := by
  have h1 : (∑ k in Finset.range (2 * n - 1),
      if k % n = x then (polynomial_multiply_core a b).getD k 0 else 0)
      = ∑ k in Finset.range (2 * n - 1), ∑ i in Finset.range n, ∑ j in Finset.range n,
          if k = i + j then (if k % n = x then a.getD i 0 * b.getD j 0 else 0) else 0 := by
    refine Finset.sum_congr rfl (fun k _ => ?_)
    by_cases hkx : k % n = x
    · rw [if_pos hkx, polynomial_multiply_core_getD, ha, hb]
      refine Finset.sum_congr rfl (fun i _ => Finset.sum_congr rfl (fun j _ => ?_))
      rw [if_pos hkx]
      exact if_congr eq_comm rfl rfl
    · rw [if_neg hkx]
      symm
      refine Finset.sum_eq_zero (fun i _ => Finset.sum_eq_zero (fun j _ => ?_))
      rw [if_neg hkx, ite_self]
  rw [h1, Finset.sum_comm]
  refine Finset.sum_congr rfl (fun i hi => ?_)
  rw [Finset.sum_comm]
  refine Finset.sum_congr rfl (fun j hj => ?_)
  rw [Finset.mem_range] at hi hj
  rw [Finset.sum_ite_eq' (Finset.range (2 * n - 1)) (i + j)
      (fun k => if k % n = x then a.getD i 0 * b.getD j 0 else 0),
    if_pos (Finset.mem_range.mpr (by omega))]

/-- C4: for equal-length inputs of length `n ≥ 1`, every entry of the
circular convolution equals the sum of the linear convolution's entries
over the indices `k < 2n - 1` that are congruent to it modulo `n`. -/
theorem circular_eq_wrapped_linear (a b : List Int)
    (hab : a.length = b.length) (hn : 1 ≤ a.length) :
    ∃ r c, positive_wrapped_convolution a b = some r ∧
      polynomial_multiply a b = some c ∧
      ∀ x < a.length,
        r.getD x 0 = ∑ k in Finset.range (2 * a.length - 1),
          if k % a.length = x then c.getD k 0 else 0 := by
  refine ⟨positive_wrapped_convolution_core a b, polynomial_multiply_core a b, ?_, ?_, ?_⟩
  · unfold positive_wrapped_convolution
    rw [if_pos hab]
  · unfold polynomial_multiply
    rw [if_neg (by omega)]
  · intro x hx
    rw [positive_wrapped_convolution_core_getD, if_pos hx,
      sum_wrapped_eq_double (fun i => a.getD i 0) (fun j => b.getD j 0) a.length x
        (by omega) hx,
      wrapped_linear_sum a b a.length (by omega) rfl hab.symm x hx]

/-- witness for C4 at `a = [1, 2]`, `b = [3, 4]`. -/
theorem circular_eq_wrapped_linear_witness :
    ∃ r c, positive_wrapped_convolution [1, 2] [3, 4] = some r ∧
      polynomial_multiply [1, 2] [3, 4] = some c ∧
      ∀ x < [(1 : Int), 2].length,
        r.getD x 0 = ∑ k in Finset.range (2 * [(1 : Int), 2].length - 1),
          if k % [(1 : Int), 2].length = x then c.getD k 0 else 0 :=
  circular_eq_wrapped_linear [1, 2] [3, 4] (by decide) (by decide)
